import Mathlib

/-!
Verification of the pairwise spectral matching and scoring engine of
`run_cfmid_lotus_eval.py` (metfrag-evaluation).

The repository's driver script is shallowly embedded here.  Mass-to-charge
values and intensities are modelled as rationals.  The parts of the pipeline
living in the external `matchms` library (the precursor m/z pre-filter and the
cosine-greedy peak-alignment scorer) are not part of the repository source and
are modelled from the specification's description of them; the driver logic
(chunking, the `x >= y` dedup rule, the `scans_id_map` feature-id counter and
the append-only CSV sink) is translated from `run_cfmid_lotus_eval.py` itself.
-/

namespace MetfragEval

/-- Spectrum value object: peak arrays plus string metadata, as produced by
`metfrag_evaluation.spectrum.Spectrum` wrapping a matchms spectrum.  Modelled
from the spec (section 3): `mz` and `intensities` are aligned peak arrays and
`metadata` is a string-keyed mapping; the precursor mass (a metadata entry the
filter consumes, optional because a spectrum may lack a usable one) is kept as
a separate optional field. -/
structure Spectrum where
  mz : List ℚ
  intensities : List ℚ
  metadata : List (String × String)
  precursor_mz : Option ℚ

instance : Inhabited Spectrum := ⟨⟨[], [], [], none⟩⟩

/-- Metadata lookup, `Spectrum.get` in the source: value of a key, or `none`
when the key is absent. -/
def Spectrum.get (s : Spectrum) (k : String) : Option String :=
  s.metadata.lookup k

/-- `filter_massspecgym_spectra` from `run_cfmid_lotus_eval.py` (lines 46-59):
keep spectra whose `inchikey` occurs among the `compound_name` values of the
ISDB spectra, then keep only `[M+H]+` adducts. -/
def filter_massspecgym_spectra (massspecgym_spectra isdb_spectra : List Spectrum) :
    List Spectrum :=
  let isdb_inchikeys := isdb_spectra.map (fun s => s.get "compound_name")
  let filtered_spectra :=
    massspecgym_spectra.filter (fun s => isdb_inchikeys.contains (s.get "inchikey"))
  filtered_spectra.filter (fun s => s.get "adduct" == some "[M+H]+")

/-- Tolerance mode of the precursor filter: parts-per-million or absolute mass
units (spec section 4.2). -/
inductive TolMode where
  | ppm
  | dalton
deriving DecidableEq

/-- Modelled from the spec: the tolerance bound of the precursor filter, which
is missing from src/ (it lives in `matchms.similarity.PrecursorMzMatch`).  In
`ppm` mode the bound is `tolerance * reference_precursor_mz / 1e6`; in
absolute mode it is the tolerance itself. -/
def toleranceBound : TolMode → ℚ → ℚ → ℚ
  | TolMode.ppm, tol, refMz => tol * refMz / 1000000
  | TolMode.dalton, tol, _ => tol

/-- Modelled from the spec: the precursor filter's per-pair criterion, missing
from src/ (`matchms.similarity.PrecursorMzMatch`).  A query/reference pair
passes when both have a usable precursor mass and the masses differ by at most
the tolerance bound; a spectrum lacking a precursor mass participates in no
pairs. -/
def precursorPass (mode : TolMode) (tol : ℚ) (q r : Spectrum) : Bool :=
  match q.precursor_mz, r.precursor_mz with
  | some mq, some mr => |mq - mr| ≤ toleranceBound mode tol mr
  | _, _ => false

/-- Modelled from the spec: the precursor filter over two collections, missing
from src/ (`matchms.calculate_scores` with `PrecursorMzMatch`): all index
pairs `(i, j)` passing the mass criterion, enumerated row-major as the driver
reads them off the sparse score array (`scores.scores[:, :]`). -/
def precursorPairs (mode : TolMode) (tol : ℚ) (qs rs : List Spectrum) :
    List (ℕ × ℕ) :=
  (List.range qs.length).flatMap fun i =>
    (List.range rs.length).filterMap fun j =>
      if precursorPass mode tol (qs.getD i default) (rs.getD j default)
      then some (i, j) else none

lemma mem_precursorPairs {mode : TolMode} {tol : ℚ} {qs rs : List Spectrum}
    {p : ℕ × ℕ} :
    p ∈ precursorPairs mode tol qs rs ↔
      p.1 < qs.length ∧ p.2 < rs.length ∧
        precursorPass mode tol (qs.getD p.1 default) (rs.getD p.2 default) = true := by
  obtain ⟨i, j⟩ := p
  simp only [precursorPairs, List.mem_flatMap, List.mem_filterMap, List.mem_range,
    Option.ite_none_right_eq_some, Option.some.injEq, Prod.mk.injEq]
  constructor
  · rintro ⟨a, ha, b, hb, hpass, rfl, rfl⟩
    exact ⟨ha, hb, hpass⟩
  · rintro ⟨hi, hj, hpass⟩
    exact ⟨i, hi, j, hj, hpass, rfl, rfl⟩

/-- Intensity of peak `k` of a spectrum (0 outside the peak array). -/
def intensityAt (s : Spectrum) (k : ℕ) : ℚ :=
  s.intensities.getD k 0

/-- Mass-to-charge of peak `k` of a spectrum (0 outside the peak array). -/
def mzAt (s : Spectrum) (k : ℕ) : ℚ :=
  s.mz.getD k 0

/-- Contribution of a candidate peak pair: the product of the two peaks'
intensities (spec section 4.3). -/
def pairProd (A B : Spectrum) (p : ℕ × ℕ) : ℚ :=
  intensityAt A p.1 * intensityAt B p.2

/-- Absolute mass difference of a candidate peak pair. -/
def mdiff (A B : Spectrum) (p : ℕ × ℕ) : ℚ :=
  |mzAt A p.1 - mzAt B p.2|

/-- Modelled from the spec: the candidate peak pairs of the greedy alignment
scorer, missing from src/ (`matchms.similarity.CosineGreedy`): all peak index
pairs whose masses differ by at most the peak-match tolerance. -/
def candidates (tol : ℚ) (A B : Spectrum) : List (ℕ × ℕ) :=
  (List.range A.mz.length).flatMap fun i =>
    (List.range B.mz.length).filterMap fun j =>
      if mdiff A B (i, j) ≤ tol then some (i, j) else none

lemma mem_candidates {tol : ℚ} {A B : Spectrum} {p : ℕ × ℕ} :
    p ∈ candidates tol A B ↔
      p.1 < A.mz.length ∧ p.2 < B.mz.length ∧ mdiff A B p ≤ tol := by
  obtain ⟨i, j⟩ := p
  simp only [candidates, List.mem_flatMap, List.mem_filterMap, List.mem_range,
    Option.ite_none_right_eq_some, Option.some.injEq, Prod.mk.injEq]
  constructor
  · rintro ⟨a, ha, b, hb, hle, rfl, rfl⟩
    exact ⟨ha, hb, hle⟩
  · rintro ⟨hi, hj, hle⟩
    exact ⟨i, hi, j, hj, hle, rfl, rfl⟩

/-- Modelled from the spec: the greedy selection priority of the scorer.  Pair
`p` is strictly better than `q` when it has larger intensity product, with
ties broken by smaller mass difference and then by peak index (spec section
4.3's deterministic tie-break). -/
def Better (A B : Spectrum) (p q : ℕ × ℕ) : Prop :=
  pairProd A B q < pairProd A B p ∨
    (pairProd A B p = pairProd A B q ∧
      (mdiff A B p < mdiff A B q ∨
        (mdiff A B p = mdiff A B q ∧
          (p.1 < q.1 ∨ (p.1 = q.1 ∧ p.2 < q.2)))))

instance (A B : Spectrum) (p q : ℕ × ℕ) : Decidable (Better A B p q) :=
  inferInstanceAs (Decidable (_ ∨ _))

lemma Better.irrefl (A B : Spectrum) (p : ℕ × ℕ) : ¬ Better A B p p := by
  rintro (h | ⟨-, h | ⟨-, h | ⟨-, h⟩⟩⟩) <;> exact lt_irrefl _ h

lemma Better.trans {A B : Spectrum} {p q r : ℕ × ℕ}
    (h1 : Better A B p q) (h2 : Better A B q r) : Better A B p r := by
  rcases h1 with h1 | ⟨e1, h1⟩
  · rcases h2 with h2 | ⟨e2, h2⟩
    · exact Or.inl (h2.trans h1)
    · exact Or.inl (e2 ▸ h1)
  · rcases h2 with h2 | ⟨e2, h2⟩
    · exact Or.inl (e1 ▸ h2)
    · refine Or.inr ⟨e1.trans e2, ?_⟩
      rcases h1 with h1 | ⟨f1, h1⟩
      · rcases h2 with h2 | ⟨f2, h2⟩
        · exact Or.inl (h1.trans h2)
        · exact Or.inl (f2 ▸ h1)
      · rcases h2 with h2 | ⟨f2, h2⟩
        · exact Or.inl (f1 ▸ h2)
        · exact Or.inr ⟨f1.trans f2, by omega⟩

lemma Better.total {A B : Spectrum} {p q : ℕ × ℕ} (hne : p ≠ q) :
    Better A B p q ∨ Better A B q p := by
  rcases lt_trichotomy (pairProd A B p) (pairProd A B q) with h | h | h
  · exact Or.inr (Or.inl h)
  · rcases lt_trichotomy (mdiff A B p) (mdiff A B q) with h' | h' | h'
    · exact Or.inl (Or.inr ⟨h, Or.inl h'⟩)
    · have hij : p.1 ≠ q.1 ∨ (p.1 = q.1 ∧ p.2 ≠ q.2) := by
        by_contra hc
        push_neg at hc
        exact hne (Prod.ext hc.1 (hc.2 hc.1))
      rcases hij with hij | ⟨hf, hs⟩
      · rcases hij.lt_or_lt with hl | hl
        · exact Or.inl (Or.inr ⟨h, Or.inr ⟨h', Or.inl hl⟩⟩)
        · exact Or.inr (Or.inr ⟨h.symm, Or.inr ⟨h'.symm, Or.inl hl⟩⟩)
      · rcases hs.lt_or_lt with hl | hl
        · exact Or.inl (Or.inr ⟨h, Or.inr ⟨h', Or.inr ⟨hf, hl⟩⟩⟩)
        · exact Or.inr (Or.inr ⟨h.symm, Or.inr ⟨h'.symm, Or.inr ⟨hf.symm, hl⟩⟩⟩)
    · exact Or.inr (Or.inr ⟨h.symm, Or.inl h'⟩)
  · exact Or.inl (Or.inl h)

/-- Modelled from the spec: pick the highest-priority candidate pair (the pair
every other candidate fails to beat). -/
def pickBest (A B : Spectrum) : List (ℕ × ℕ) → Option (ℕ × ℕ)
  | [] => none
  | p :: rest =>
    match pickBest A B rest with
    | none => some p
    | some q => if Better A B q p then some q else some p

lemma pickBest_eq_none {A B : Spectrum} {l : List (ℕ × ℕ)} :
    pickBest A B l = none ↔ l = [] := by
  cases l with
  | nil => simp [pickBest]
  | cons p rest =>
    simp only [pickBest]
    cases h : pickBest A B rest with
    | none => simp
    | some q =>
      by_cases hb : Better A B q p <;> simp [hb]

lemma pickBest_mem {A B : Spectrum} {l : List (ℕ × ℕ)} {m : ℕ × ℕ}
    (h : pickBest A B l = some m) : m ∈ l := by
  induction l generalizing m with
  | nil => simp [pickBest] at h
  | cons p rest ih =>
    simp only [pickBest] at h
    cases hrec : pickBest A B rest with
    | none =>
      rw [hrec] at h
      simp only [Option.some.injEq] at h
      simp [h]
    | some q =>
      rw [hrec] at h
      dsimp only at h
      by_cases hb : Better A B q p
      · rw [if_pos hb] at h
        simp only [Option.some.injEq] at h
        subst h
        exact List.mem_cons_of_mem _ (ih hrec)
      · rw [if_neg hb] at h
        simp only [Option.some.injEq] at h
        simp [h]

lemma pickBest_not_better {A B : Spectrum} {l : List (ℕ × ℕ)} {m : ℕ × ℕ}
    (h : pickBest A B l = some m) : ∀ q ∈ l, ¬ Better A B q m := by
  induction l generalizing m with
  | nil => simp [pickBest] at h
  | cons p rest ih =>
    simp only [pickBest] at h
    cases hrec : pickBest A B rest with
    | none =>
      rw [hrec] at h
      simp only [Option.some.injEq] at h
      subst h
      have hrest : rest = [] := pickBest_eq_none.mp hrec
      subst hrest
      intro q hq
      rw [List.mem_singleton] at hq
      subst hq
      exact Better.irrefl A B q
    | some q' =>
      rw [hrec] at h
      dsimp only at h
      by_cases hb : Better A B q' p
      · rw [if_pos hb] at h
        simp only [Option.some.injEq] at h
        subst h
        intro q hq
        rcases List.mem_cons.mp hq with rfl | hq
        · intro hpq
          exact Better.irrefl A B _ (Better.trans hpq hb)
        · exact ih hrec q hq
      · rw [if_neg hb] at h
        simp only [Option.some.injEq] at h
        subst h
        intro q hq
        rcases List.mem_cons.mp hq with rfl | hq
        · exact Better.irrefl A B q
        · intro hqp
          rcases eq_or_ne q' p with heq | hne
          · exact ih hrec q hq (heq ▸ hqp)
          · rcases Better.total (A := A) (B := B) hne with hq'p | hpq'
            · exact hb hq'p
            · exact ih hrec q hq (Better.trans hqp hpq')

/-- Modelled from the spec: the greedy one-to-one matching loop of the scorer
(`matchms.similarity.CosineGreedy`, missing from src/).  Repeatedly commit the
highest-priority candidate pair and discard every candidate using either of
its peaks; the fuel argument (instantiated with the candidate count) makes the
recursion structural. -/
def greedyGo (A B : Spectrum) : ℕ → List (ℕ × ℕ) → List (ℕ × ℕ)
  | 0, _ => []
  | fuel + 1, l =>
    match pickBest A B l with
    | none => []
    | some m =>
      m :: greedyGo A B fuel (l.filter fun q => decide (q.1 ≠ m.1 ∧ q.2 ≠ m.2))

/-- Matched peak pairs of the greedy alignment scorer. -/
def matchedPairs (tol : ℚ) (A B : Spectrum) : List (ℕ × ℕ) :=
  greedyGo A B (candidates tol A B).length (candidates tol A B)

/-- Squared Euclidean norm of a spectrum's intensity vector. -/
def normSq (s : Spectrum) : ℚ :=
  (s.intensities.map (fun x => x * x)).sum

/-- Modelled from the spec: the matched peak count of the greedy alignment
scorer, with the zero-norm guard of spec section 4.3 (zero total intensity on
either side yields 0 matches). -/
def cosineGreedy_matches (tol : ℚ) (A B : Spectrum) : ℕ :=
  if normSq A = 0 ∨ normSq B = 0 then 0 else (matchedPairs tol A B).length

/-- Modelled from the spec: the similarity score of the greedy alignment
scorer: sum of committed intensity products, normalized by the product of the
two full intensity-vector norms, clamped to `[0, 1]`, with the zero-norm guard
returning 0 (spec section 4.3). -/
noncomputable def cosineGreedy_score (tol : ℚ) (A B : Spectrum) : ℝ :=
  if normSq A = 0 ∨ normSq B = 0 then 0
  else
    min 1 (max 0
      ((((matchedPairs tol A B).map (pairProd A B)).sum : ℝ) /
        Real.sqrt ((normSq A : ℝ) * (normSq B : ℝ))))

lemma greedyGo_subset {A B : Spectrum} :
    ∀ (fuel : ℕ) (l : List (ℕ × ℕ)), ∀ q ∈ greedyGo A B fuel l, q ∈ l := by
  intro fuel
  induction fuel with
  | zero => intro l q hq; simp [greedyGo] at hq
  | succ fuel ih =>
    intro l q hq
    rw [greedyGo] at hq
    cases hpick : pickBest A B l with
    | none => rw [hpick] at hq; simp at hq
    | some m =>
      rw [hpick] at hq
      dsimp only at hq
      rcases List.mem_cons.mp hq with rfl | hq
      · exact pickBest_mem hpick
      · exact List.mem_of_mem_filter (ih _ q hq)

lemma greedyGo_pairwise {A B : Spectrum} :
    ∀ (fuel : ℕ) (l : List (ℕ × ℕ)),
      (greedyGo A B fuel l).Pairwise (fun p q => p.1 ≠ q.1 ∧ p.2 ≠ q.2) := by
  intro fuel
  induction fuel with
  | zero => intro l; simp [greedyGo]
  | succ fuel ih =>
    intro l
    rw [greedyGo]
    cases hpick : pickBest A B l with
    | none => simp
    | some m =>
      dsimp only
      refine List.Pairwise.cons ?_ (ih _)
      intro q hq
      have hq' := greedyGo_subset fuel _ q hq
      have := List.of_mem_filter hq'
      simp only [decide_eq_true_eq] at this
      exact ⟨Ne.symm this.1, Ne.symm this.2⟩

lemma nodup_length_le {l : List ℕ} {n : ℕ} (hnd : l.Nodup)
    (hlt : ∀ x ∈ l, x < n) : l.length ≤ n := by
  classical
  have hsub : l.toFinset ⊆ Finset.range n := by
    intro x hx
    rw [Finset.mem_range]
    exact hlt x (List.mem_toFinset.mp hx)
  calc l.length = l.toFinset.card := (List.toFinset_card_of_nodup hnd).symm
    _ ≤ (Finset.range n).card := Finset.card_le_card hsub
    _ = n := Finset.card_range n

lemma matchedPairs_length_le (tol : ℚ) (A B : Spectrum) :
    (matchedPairs tol A B).length ≤ min A.mz.length B.mz.length := by
  have hsub : ∀ q ∈ matchedPairs tol A B, q ∈ candidates tol A B :=
    greedyGo_subset _ _
  have hpw := greedyGo_pairwise (A := A) (B := B)
    (candidates tol A B).length (candidates tol A B)
  refine le_min ?_ ?_
  · have hnd : ((matchedPairs tol A B).map Prod.fst).Nodup := by
      rw [List.Nodup, List.pairwise_map]
      exact hpw.imp (fun h => h.1)
    have := nodup_length_le hnd (n := A.mz.length) ?_
    · simpa using this
    · intro x hx
      rcases List.mem_map.mp hx with ⟨q, hq, rfl⟩
      exact (mem_candidates.mp (hsub q hq)).1
  · have hnd : ((matchedPairs tol A B).map Prod.snd).Nodup := by
      rw [List.Nodup, List.pairwise_map]
      exact hpw.imp (fun h => h.2)
    have := nodup_length_le hnd (n := B.mz.length) ?_
    · simpa using this
    · intro x hx
      rcases List.mem_map.mp hx with ⟨q, hq, rfl⟩
      exact (mem_candidates.mp (hsub q hq)).2.1

/-- C5: for every pair of spectra and tolerance, the similarity score lies in
`[0, 1]` and the matched peak count is at most the smaller peak count of the
two spectra. -/
theorem scorer_bounds (tol : ℚ) (A B : Spectrum) :
    0 ≤ cosineGreedy_score tol A B ∧ cosineGreedy_score tol A B ≤ 1 ∧
      cosineGreedy_matches tol A B ≤ min A.mz.length B.mz.length := by
  unfold cosineGreedy_score cosineGreedy_matches
  by_cases h : normSq A = 0 ∨ normSq B = 0
  · rw [if_pos h, if_pos h]
    exact ⟨le_refl 0, zero_le_one, Nat.zero_le _⟩
  · rw [if_neg h, if_neg h]
    refine ⟨?_, ?_, matchedPairs_length_le tol A B⟩
    · exact le_min zero_le_one (le_max_left 0 _)
    · exact min_le_left 1 _

/-- C1: with the driver's configuration (tolerance 10, ppm mode), the
precursor filter emits the index pair `(i, j)` iff the two precursor masses
differ by at most `10 * reference_precursor_mz / 1e6`, for spectra with
usable precursor masses. -/
theorem precursor_filter_iff (qs rs : List Spectrum) (i j : ℕ) (mq mr : ℚ)
    (hi : i < qs.length) (hj : j < rs.length)
    (hq : (qs.getD i default).precursor_mz = some mq)
    (hr : (rs.getD j default).precursor_mz = some mr) :
    (i, j) ∈ precursorPairs TolMode.ppm 10 qs rs ↔
      |mq - mr| ≤ 10 * mr / 1000000 := by
  rw [mem_precursorPairs]
  unfold precursorPass
  rw [hq, hr]
  simp [toleranceBound, hi, hj]

/-- Query spectrum for the C1 witness. -/
def w1q : Spectrum := ⟨[], [], [], some 100⟩

/-- Reference spectrum for the C1 witness. -/
def w1r : Spectrum := ⟨[], [], [], some 100⟩

theorem precursor_filter_iff_witness :
    (0, 0) ∈ precursorPairs TolMode.ppm 10 [w1q] [w1r] ↔
      |(100 : ℚ) - 100| ≤ 10 * 100 / 1000000 :=
  precursor_filter_iff [w1q] [w1r] 0 0 100 100 (by decide) (by decide)
    (by decide) (by decide)

/-- Spectrum with precursor mass 1e6, exhibiting ppm-mode asymmetry. -/
def ppmA : Spectrum := ⟨[], [], [], some 1000000⟩

/-- Spectrum with precursor mass 1e6 + 10.00005, exhibiting ppm-mode
asymmetry. -/
def ppmB : Spectrum := ⟨[], [], [], some (1000010 + 1 / 20000)⟩

unseal Rat.add Rat.sub Rat.mul Rat.inv in
/-- C2 counterexample: with identical query and reference collections in ppm
mode, the pair `(0, 1)` passes the precursor filter but the mirrored pair
`(1, 0)` does not, because the tolerance bound scales with the reference
spectrum's precursor mass. -/
theorem precursor_filter_ppm_asymm :
    (0, 1) ∈ precursorPairs TolMode.ppm 10 [ppmA, ppmB] [ppmA, ppmB] ∧
      (1, 0) ∉ precursorPairs TolMode.ppm 10 [ppmA, ppmB] [ppmA, ppmB] := by
  decide

lemma precursorPass_dalton_symm (tol : ℚ) (q r : Spectrum) :
    precursorPass TolMode.dalton tol q r = precursorPass TolMode.dalton tol r q := by
  unfold precursorPass
  cases hq : q.precursor_mz <;> cases hr : r.precursor_mz <;>
    simp [toleranceBound, abs_sub_comm]

/-- C2 amended: the precursor filter applied to identical query and reference
collections is symmetric in absolute (Dalton) tolerance mode; in ppm mode
symmetry can fail because the bound scales with the reference precursor
mass. -/
theorem precursor_filter_dalton_symm (tol : ℚ) (xs : List Spectrum) (i j : ℕ) :
    ((i, j) ∈ precursorPairs TolMode.dalton tol xs xs ↔
      (j, i) ∈ precursorPairs TolMode.dalton tol xs xs) := by
  rw [mem_precursorPairs, mem_precursorPairs]
  constructor <;> rintro ⟨h1, h2, h3⟩ <;>
    exact ⟨h2, h1, by rw [precursorPass_dalton_symm]; exact h3⟩

/-- First spectrum of the tolerance-monotonicity counterexample. -/
def monoA : Spectrum := ⟨[100, 111], [10, 1], [], none⟩

/-- Second spectrum of the tolerance-monotonicity counterexample. -/
def monoB : Spectrum := ⟨[99, 110], [1, 10], [], none⟩

unseal Rat.add Rat.sub Rat.mul Rat.inv in
/-- C7 counterexample: widening the peak-match tolerance from 1 to 10 lets a
high-intensity cross pair outrank and block both previously committed pairs,
so the matched peak count drops from 2 to 1. -/
theorem matches_not_monotone :
    (1 : ℚ) ≤ 10 ∧
      ¬ cosineGreedy_matches 1 monoA monoB ≤ cosineGreedy_matches 10 monoA monoB := by
  decide

/-- C7 amended: widening the peak-match tolerance never shrinks the candidate
peak-pair set the greedy scorer selects from (the matched peak count itself is
not monotone in the tolerance). -/
theorem candidates_monotone (t1 t2 : ℚ) (h : t1 ≤ t2) (A B : Spectrum) :
    candidates t1 A B ⊆ candidates t2 A B := by
  intro p hp
  rw [mem_candidates] at hp ⊢
  exact ⟨hp.1, hp.2.1, hp.2.2.trans h⟩

theorem candidates_monotone_witness :
    (1 : ℚ) ≤ 10 ∧ candidates 1 monoA monoB ⊆ candidates 10 monoA monoB :=
  ⟨by decide, candidates_monotone 1 10 (by decide) monoA monoB⟩

lemma greedyGo_nil (A B : Spectrum) (fuel : ℕ) : greedyGo A B fuel [] = [] := by
  cases fuel <;> rfl

lemma intensityAt_nonneg {S : Spectrum} (hnn : ∀ x ∈ S.intensities, 0 ≤ x)
    (k : ℕ) : 0 ≤ intensityAt S k := by
  unfold intensityAt
  by_cases hk : k < S.intensities.length
  · rw [List.getD_eq_getElem _ _ hk]
    exact hnn _ (List.getElem_mem hk)
  · rw [List.getD_eq_default _ _ (not_lt.mp hk)]

lemma mzAt_injOn {S : Spectrum} (hsort : S.mz.Pairwise (· < ·))
    {i j : ℕ} (hi : i < S.mz.length) (hj : j < S.mz.length) (hij : i ≠ j) :
    mzAt S i ≠ mzAt S j := by
  have hmono := List.pairwise_iff_getElem.mp hsort
  unfold mzAt
  rw [List.getD_eq_getElem _ _ hi, List.getD_eq_getElem _ _ hj]
  rcases hij.lt_or_lt with h | h
  · exact ne_of_lt (hmono i j hi hj h)
  · exact ne_of_gt (hmono j i hj hi h)

lemma self_mem_candidates {S : Spectrum} {tol : ℚ} (htol : 0 ≤ tol)
    {k : ℕ} (hk : k < S.mz.length) : (k, k) ∈ candidates tol S S :=
  mem_candidates.mpr ⟨hk, hk, by simp [mdiff, sub_self, htol]⟩

lemma greedy_self_diag (S : Spectrum) (tol : ℚ)
    (hsort : S.mz.Pairwise (· < ·))
    (hnn : ∀ x ∈ S.intensities, 0 ≤ x)
    (htol : 0 ≤ tol) :
    ∀ (fuel : ℕ) (F : Finset ℕ), F ⊆ Finset.range S.mz.length →
      ((candidates tol S S).filter
          (fun p => decide (p.1 ∈ F ∧ p.2 ∈ F))).length ≤ fuel →
      (greedyGo S S fuel ((candidates tol S S).filter
          (fun p => decide (p.1 ∈ F ∧ p.2 ∈ F)))).length = F.card ∧
      ((greedyGo S S fuel ((candidates tol S S).filter
          (fun p => decide (p.1 ∈ F ∧ p.2 ∈ F)))).map (pairProd S S)).sum =
        ∑ k ∈ F, intensityAt S k * intensityAt S k := by
  intro fuel
  induction fuel with
  | zero =>
    intro F hF hlen
    rcases F.eq_empty_or_nonempty with rfl | ⟨k₁, hk₁⟩
    · simp [greedyGo_nil, List.filter_eq_nil_iff]
    · exfalso
      have hk₁n : k₁ < S.mz.length := Finset.mem_range.mp (hF hk₁)
      have hmem : (k₁, k₁) ∈ (candidates tol S S).filter
          (fun p => decide (p.1 ∈ F ∧ p.2 ∈ F)) := by
        rw [List.mem_filter]
        exact ⟨self_mem_candidates htol hk₁n, by simp [hk₁]⟩
      have := List.length_pos_of_mem hmem
      omega
  | succ fuel ih =>
    intro F hF hlen
    rcases F.eq_empty_or_nonempty with rfl | hFne
    · have hnil : (candidates tol S S).filter
          (fun p => decide (p.1 ∈ (∅ : Finset ℕ) ∧ p.2 ∈ (∅ : Finset ℕ))) = [] := by
        rw [List.filter_eq_nil_iff]; intro a _; simp
      rw [hnil, greedyGo_nil]
      simp
    · obtain ⟨k₀, hk₀F, hk₀max⟩ := F.exists_max_image (intensityAt S) hFne
      have hk₀n : k₀ < S.mz.length := Finset.mem_range.mp (hF hk₀F)
      have hk₀L : (k₀, k₀) ∈ (candidates tol S S).filter
          (fun p => decide (p.1 ∈ F ∧ p.2 ∈ F)) := by
        rw [List.mem_filter]
        exact ⟨self_mem_candidates htol hk₀n, by simp [hk₀F]⟩
      cases hpick : pickBest S S ((candidates tol S S).filter
          (fun p => decide (p.1 ∈ F ∧ p.2 ∈ F))) with
      | none =>
        exfalso
        rw [pickBest_eq_none.mp hpick] at hk₀L
        cases hk₀L
      | some m =>
        have hmL := pickBest_mem hpick
        have hbest := pickBest_not_better hpick
        obtain ⟨hmc, hmF⟩ := List.mem_filter.mp hmL
        rw [decide_eq_true_eq] at hmF
        obtain ⟨hm1F, hm2F⟩ := hmF
        have hm1n : m.1 < S.mz.length := (mem_candidates.mp hmc).1
        have hm2n : m.2 < S.mz.length := (mem_candidates.mp hmc).2.1
        have hdiag : m.1 = m.2 := by
          by_contra hne_idx
          have hmzne := mzAt_injOn hsort hm1n hm2n hne_idx
          have hmd_pos : 0 < mdiff S S m := by
            unfold mdiff
            exact abs_pos.mpr (sub_ne_zero.mpr hmzne)
          have hprod_le : pairProd S S m ≤ intensityAt S k₀ * intensityAt S k₀ :=
            mul_le_mul (hk₀max _ hm1F) (hk₀max _ hm2F)
              (intensityAt_nonneg hnn _)
              (le_trans (intensityAt_nonneg hnn m.1) (hk₀max _ hm1F))
          have hbk : Better S S (k₀, k₀) m := by
            rcases lt_or_eq_of_le hprod_le with hlt | heq
            · exact Or.inl (by simpa [pairProd] using hlt)
            · refine Or.inr ⟨by simpa [pairProd] using heq.symm, Or.inl ?_⟩
              have hz : mdiff S S (k₀, k₀) = 0 := by simp [mdiff, sub_self]
              rw [hz]
              exact hmd_pos
          exact hbest _ hk₀L hbk
        have hkF : m.1 ∈ F := hm1F
        have hfilter_eq : ((candidates tol S S).filter
              (fun p => decide (p.1 ∈ F ∧ p.2 ∈ F))).filter
                (fun q => decide (q.1 ≠ m.1 ∧ q.2 ≠ m.2)) =
            (candidates tol S S).filter
              (fun p => decide (p.1 ∈ F.erase m.1 ∧ p.2 ∈ F.erase m.1)) := by
          rw [List.filter_filter]
          apply List.filter_congr
          intro p _
          rw [Bool.eq_iff_iff]
          simp only [Bool.and_eq_true, decide_eq_true_eq, Finset.mem_erase, ← hdiag]
          tauto
        have hlen' : ((candidates tol S S).filter
            (fun p => decide (p.1 ∈ F.erase m.1 ∧ p.2 ∈ F.erase m.1))).length ≤ fuel := by
          rw [← hfilter_eq]
          have hlt : (((candidates tol S S).filter
              (fun p => decide (p.1 ∈ F ∧ p.2 ∈ F))).filter
                (fun q => decide (q.1 ≠ m.1 ∧ q.2 ≠ m.2))).length <
              ((candidates tol S S).filter
                (fun p => decide (p.1 ∈ F ∧ p.2 ∈ F))).length := by
            rw [List.length_filter_lt_length_iff_exists]
            exact ⟨m, hmL, by simp⟩
          omega
        have hsub' : F.erase m.1 ⊆ Finset.range S.mz.length :=
          Finset.Subset.trans (Finset.erase_subset _ _) hF
        obtain ⟨ihlen, ihsum⟩ := ih (F.erase m.1) hsub' hlen'
        rw [greedyGo, hpick]
        dsimp only
        rw [hfilter_eq]
        constructor
        · rw [List.length_cons, ihlen]
          exact Finset.card_erase_add_one hkF
        · rw [List.map_cons, List.sum_cons, ihsum]
          have hpm : pairProd S S m = intensityAt S m.1 * intensityAt S m.1 := by
            unfold pairProd
            rw [← hdiag]
          rw [hpm]
          exact Finset.add_sum_erase F (fun k => intensityAt S k * intensityAt S k) hkF

lemma sum_range_getD (l : List ℚ) (g : ℚ → ℚ) :
    ∑ k ∈ Finset.range l.length, g (l.getD k 0) = (l.map g).sum := by
  induction l with
  | nil => simp
  | cons a t ih =>
    rw [List.length_cons, Finset.sum_range_succ']
    simp only [List.getD_cons_succ, List.getD_cons_zero]
    rw [ih, List.map_cons, List.sum_cons]
    exact add_comm _ _

lemma normSq_pos {S : Spectrum} (hnz : ∃ x ∈ S.intensities, x ≠ 0) :
    0 < normSq S := by
  obtain ⟨x, hx, hxne⟩ := hnz
  have hmem : x * x ∈ S.intensities.map (fun y => y * y) :=
    List.mem_map_of_mem _ hx
  have hle := List.single_le_sum (l := S.intensities.map (fun y => y * y))
    (fun y hy => by
      obtain ⟨z, _, rfl⟩ := List.mem_map.mp hy
      exact mul_self_nonneg z) _ hmem
  exact lt_of_lt_of_le (mul_self_pos.mpr hxne) hle

lemma matchedPairs_self (S : Spectrum) (tol : ℚ)
    (hsort : S.mz.Pairwise (· < ·))
    (hnn : ∀ x ∈ S.intensities, 0 ≤ x)
    (htol : 0 ≤ tol) :
    (matchedPairs tol S S).length = S.mz.length ∧
      ((matchedPairs tol S S).map (pairProd S S)).sum =
        ∑ k ∈ Finset.range S.mz.length, intensityAt S k * intensityAt S k := by
  have hfull : (candidates tol S S).filter
      (fun p => decide (p.1 ∈ Finset.range S.mz.length ∧
        p.2 ∈ Finset.range S.mz.length)) = candidates tol S S := by
    rw [List.filter_eq_self]
    intro p hp
    obtain ⟨h1, h2, -⟩ := mem_candidates.mp hp
    simp [Finset.mem_range, h1, h2]
  have hmain := greedy_self_diag S tol hsort hnn htol (candidates tol S S).length
    (Finset.range S.mz.length) (Finset.Subset.refl _) (by rw [hfull])
  rw [hfull] at hmain
  unfold matchedPairs
  simpa [Finset.card_range] using hmain

/-- C6: scoring a well-formed spectrum (aligned peak arrays, strictly
increasing masses, nonnegative intensities, at least one nonzero intensity)
against an exact copy of itself with a nonnegative peak-match tolerance
yields similarity score 1 and a matched peak count equal to the number of
peaks. -/
theorem scorer_self_identity (S : Spectrum) (tol : ℚ)
    (hlen : S.intensities.length = S.mz.length)
    (hsort : S.mz.Pairwise (· < ·))
    (hnn : ∀ x ∈ S.intensities, 0 ≤ x)
    (htol : 0 ≤ tol)
    (hnz : ∃ x ∈ S.intensities, x ≠ 0) :
    cosineGreedy_score tol S S = 1 ∧
      cosineGreedy_matches tol S S = S.mz.length := by
  have hpos : 0 < normSq S := normSq_pos hnz
  have hne : ¬ (normSq S = 0 ∨ normSq S = 0) := by
    simp [ne_of_gt hpos]
  obtain ⟨hlen2, hsum⟩ := matchedPairs_self S tol hsort hnn htol
  have hnormeq : ∑ k ∈ Finset.range S.mz.length,
      intensityAt S k * intensityAt S k = normSq S := by
    unfold normSq
    rw [← hlen]
    exact sum_range_getD S.intensities (fun x => x * x)
  constructor
  · unfold cosineGreedy_score
    rw [if_neg hne, hsum, hnormeq]
    have h0 : (0 : ℝ) ≤ (normSq S : ℝ) := by exact_mod_cast hpos.le
    rw [Real.sqrt_mul_self h0, div_self (by exact_mod_cast hpos.ne')]
    norm_num
  · unfold cosineGreedy_matches
    rw [if_neg hne, hlen2]

/-- Concrete two-peak spectrum used as the C6 witness. -/
def selfS : Spectrum := ⟨[100, 200], [1, 2], [], none⟩

unseal Rat.add Rat.sub Rat.mul Rat.inv in
theorem scorer_self_identity_witness :
    cosineGreedy_score (1 / 100) selfS selfS = 1 ∧
      cosineGreedy_matches (1 / 100) selfS selfS = selfS.mz.length :=
  scorer_self_identity selfS (1 / 100) (by decide) (by decide) (by decide)
    (by decide) (by decide)

/-- Match Record written to the output CSV, one per surviving candidate pair
(`data.append({...})` in `run_cfmid_lotus_eval.py` lines 95-107). -/
structure MatchRecord where
  msms_score : ℝ
  matched_peaks : ℕ
  feature_id : ℕ
  reference_id : ℕ
  inchikey_isdb : Option String
  inchikey_msg : Option String
  adduct : Option String
  instrument : Option String

/-- One record of the driver, translated from the dict literal in
`run_cfmid_lotus_eval.py` lines 95-107: the cosine-greedy score and match
count at tolerance 0.01, the feature id looked up in `scans_id_map` at key
`x + 1000 * chunk_number`, the 1-based reference id, and metadata excerpts. -/
noncomputable def mkRecord (c : ℕ) (m : List (ℕ × ℕ)) (chunk isdb : List Spectrum)
    (p : ℕ × ℕ) : MatchRecord :=
  { msms_score := cosineGreedy_score (1 / 100) (chunk.getD p.1 default) (isdb.getD p.2 default)
    matched_peaks := cosineGreedy_matches (1 / 100) (chunk.getD p.1 default) (isdb.getD p.2 default)
    feature_id := (m.lookup (p.1 + 1000 * c)).getD 0
    reference_id := p.2 + 1
    inchikey_isdb := (isdb.getD p.2 default).get "compound_name"
    inchikey_msg := (chunk.getD p.1 default).get "inchikey"
    adduct := (chunk.getD p.1 default).get "adduct"
    instrument := (chunk.getD p.1 default).get "instrument_type" }

/-- Records of one chunk: for every filter-emitted pair, skip it when
`x >= y` (`if x >= y: continue`, lines 89-90), otherwise build a record. -/
noncomputable def chunkRecords (c : ℕ) (m : List (ℕ × ℕ)) (chunk isdb : List Spectrum) :
    List MatchRecord :=
  (precursorPairs TolMode.ppm 10 chunk isdb).filterMap fun p =>
    if p.1 ≥ p.2 then none else some (mkRecord c m chunk isdb p)

/-- The CSV sink: `none` models a nonexistent file; `some (h, rows)` a file
holding `h` header lines and `rows` records.  `df.to_csv(..., mode="a",
header=not os.path.exists(...))` (lines 109-115) creates the file when it is
absent, writing the schema header only if the chunk's DataFrame has columns:
`pd.DataFrame([])` is a zero-column frame whose `to_csv` emits no header row
while still creating the file, so a record-less chunk appended to a fresh
destination creates it with zero header lines.  Appends to an existing file
pass `header=False` and never write a header. -/
def appendCsv : Option (ℕ × List MatchRecord) → List MatchRecord →
    Option (ℕ × List MatchRecord)
  | none, recs => some (if recs.isEmpty then 0 else 1, recs)
  | some (h, rows), recs => some (h, rows ++ recs)

/-- Driver state threaded through the chunk loop: the mutable `scans_id_map`,
the running counter `i`, and the output file. -/
structure DState where
  map : List (ℕ × ℕ)
  nextId : ℕ
  file : Option (ℕ × List MatchRecord)

/-- One iteration of the chunk loop (lines 78-115): extend `scans_id_map` by
an identity entry per chunk spectrum while advancing the counter, build the
chunk's records, and append them to the CSV. -/
noncomputable def processChunk (isdb : List Spectrum) (c : ℕ) (st : DState)
    (chunk : List Spectrum) : DState :=
  let m := st.map ++ (List.range chunk.length).map (fun k => (st.nextId + k, st.nextId + k))
  let recs := chunkRecords c m chunk isdb
  ⟨m, st.nextId + chunk.length, appendCsv st.file recs⟩

/-- The chunk loop: process 1000-spectrum slices of the query list in order
(`chunks_query = [spectra[x : x + 1000] ...]`, line 72).  The fuel argument
(instantiated with the query count, an upper bound on the chunk count) makes
the recursion structural. -/
noncomputable def driverGo (isdb : List Spectrum) : ℕ → ℕ → DState → List Spectrum → DState
  | 0, _, st, _ => st
  | fuel + 1, c, st, rest =>
    if rest.isEmpty then st
    else driverGo isdb fuel (c + 1) (processChunk isdb c st (rest.take 1000)) (rest.drop 1000)

/-- A run of `main`'s matching loop against a given initial CSV sink state
(the fresh-state map and counter of lines 76-77). -/
noncomputable def runDriverFrom (f0 : Option (ℕ × List MatchRecord))
    (qs isdb : List Spectrum) : DState :=
  driverGo isdb qs.length 0 ⟨[], 0, f0⟩ qs

/-- A run of `main`'s matching loop starting with no output file. -/
noncomputable def runDriver (qs isdb : List Spectrum) : DState :=
  runDriverFrom none qs isdb

/-- Record rows of the CSV sink. -/
def fileRows (st : DState) : List MatchRecord :=
  match st.file with
  | none => []
  | some (_, rows) => rows

/-- Number of header lines in the CSV sink. -/
def fileHeaderCount (st : DState) : ℕ :=
  match st.file with
  | none => 0
  | some (h, _) => h

/-- Pure-function Match Record, following the spec's words: identical to
`mkRecord` except that `query_feature_id` is computed directly as
`chunk_index * chunk_size + chunk_local_index` instead of through the mutable
`scans_id_map`. -/
noncomputable def mkRecordPure (c : ℕ) (chunk isdb : List Spectrum)
    (p : ℕ × ℕ) : MatchRecord :=
  { msms_score := cosineGreedy_score (1 / 100) (chunk.getD p.1 default) (isdb.getD p.2 default)
    matched_peaks := cosineGreedy_matches (1 / 100) (chunk.getD p.1 default) (isdb.getD p.2 default)
    feature_id := 1000 * c + p.1
    reference_id := p.2 + 1
    inchikey_isdb := (isdb.getD p.2 default).get "compound_name"
    inchikey_msg := (chunk.getD p.1 default).get "inchikey"
    adduct := (chunk.getD p.1 default).get "adduct"
    instrument := (chunk.getD p.1 default).get "instrument_type" }

/-- Chunk records of the pure-id driver (spec refinement target). -/
noncomputable def chunkRecordsPure (c : ℕ) (chunk isdb : List Spectrum) :
    List MatchRecord :=
  (precursorPairs TolMode.ppm 10 chunk isdb).filterMap fun p =>
    if p.1 ≥ p.2 then none else some (mkRecordPure c chunk isdb p)

/-- Record stream of the pure-id driver (spec refinement target): no mutable
map, no counter, ids a pure function of chunk index and local index. -/
noncomputable def driverGoPure (isdb : List Spectrum) : ℕ → ℕ → List Spectrum → List MatchRecord
  | 0, _, _ => []
  | fuel + 1, c, rest =>
    if rest.isEmpty then []
    else chunkRecordsPure c (rest.take 1000) isdb ++
      driverGoPure isdb fuel (c + 1) (rest.drop 1000)

/-- Feature-id stream of a driver run, as a directly computable function. -/
def goIds (isdb : List Spectrum) : ℕ → ℕ → List Spectrum → List ℕ
  | 0, _, _ => []
  | fuel + 1, c, rest =>
    if rest.isEmpty then []
    else ((precursorPairs TolMode.ppm 10 (rest.take 1000) isdb).filter
        (fun p => decide (p.1 < p.2))).map (fun p => 1000 * c + p.1) ++
      goIds isdb fuel (c + 1) (rest.drop 1000)

lemma filterMap_if_lt {β : Type} (f : ℕ × ℕ → β) (l : List (ℕ × ℕ)) :
    (l.filterMap fun p => if p.1 ≥ p.2 then none else some (f p)) =
      (l.filter fun p => decide (p.1 < p.2)).map f := by
  induction l with
  | nil => rfl
  | cons a t ih =>
    by_cases h : a.1 ≥ a.2
    · simp [List.filterMap_cons, List.filter_cons, h, not_lt.mpr h, ih]
    · simp [List.filterMap_cons, List.filter_cons, h, lt_of_not_ge h, ih]

lemma chunkRecords_eq (c : ℕ) (m : List (ℕ × ℕ)) (chunk isdb : List Spectrum) :
    chunkRecords c m chunk isdb =
      ((precursorPairs TolMode.ppm 10 chunk isdb).filter
        (fun p => decide (p.1 < p.2))).map (mkRecord c m chunk isdb) :=
  filterMap_if_lt _ _

lemma chunkRecordsPure_eq (c : ℕ) (chunk isdb : List Spectrum) :
    chunkRecordsPure c chunk isdb =
      ((precursorPairs TolMode.ppm 10 chunk isdb).filter
        (fun p => decide (p.1 < p.2))).map (mkRecordPure c chunk isdb) :=
  filterMap_if_lt _ _

/-- C3: a chunk yields a Match Record for a filter-emitted pair `(x, y)` iff
the chunk-local query index `x` is strictly smaller than the reference index
`y`; pairs with `x >= y` yield no record. -/
theorem driver_dedup_iff (c : ℕ) (m : List (ℕ × ℕ)) (chunk isdb : List Spectrum)
    (r : MatchRecord) :
    r ∈ chunkRecords c m chunk isdb ↔
      ∃ p ∈ precursorPairs TolMode.ppm 10 chunk isdb,
        p.1 < p.2 ∧ r = mkRecord c m chunk isdb p := by
  rw [chunkRecords_eq]
  simp only [List.mem_map, List.mem_filter, decide_eq_true_eq]
  constructor
  · rintro ⟨p, ⟨hp, hlt⟩, rfl⟩
    exact ⟨p, hp, hlt, rfl⟩
  · rintro ⟨p, hp, hlt, rfl⟩
    exact ⟨p, ⟨hp, hlt⟩, rfl⟩

lemma driverGo_file_some (isdb : List Spectrum) :
    ∀ (fuel c : ℕ) (st : DState) (rest : List Spectrum) (h : ℕ)
      (rows : List MatchRecord), st.file = some (h, rows) →
      ∃ extra, (driverGo isdb fuel c st rest).file = some (h, rows ++ extra) := by
  intro fuel
  induction fuel with
  | zero =>
    intro c st rest h rows hfile
    exact ⟨[], by simp [driverGo, hfile]⟩
  | succ fuel ih =>
    intro c st rest h rows hfile
    rw [driverGo]
    by_cases hrest : rest.isEmpty
    · rw [if_pos hrest]
      exact ⟨[], by simp [hfile]⟩
    · rw [if_neg hrest]
      have hfile' : (processChunk isdb c st (rest.take 1000)).file =
          some (h, rows ++ chunkRecords c
            (st.map ++ (List.range (rest.take 1000).length).map
              (fun k => (st.nextId + k, st.nextId + k))) (rest.take 1000) isdb) := by
        simp [processChunk, appendCsv, hfile]
      obtain ⟨extra, hfin⟩ := ih (c + 1) _ (rest.drop 1000) h _ hfile'
      rw [List.append_assoc] at hfin
      exact ⟨_, hfin⟩

lemma chunkRecords_isEmpty (c : ℕ) (m : List (ℕ × ℕ)) (chunk isdb : List Spectrum) :
    (chunkRecords c m chunk isdb).isEmpty =
      ((precursorPairs TolMode.ppm 10 chunk isdb).filter
        (fun p => decide (p.1 < p.2))).isEmpty := by
  rw [chunkRecords_eq]
  cases (precursorPairs TolMode.ppm 10 chunk isdb).filter
      (fun p => decide (p.1 < p.2)) <;> rfl

lemma driverGo_file_none (isdb : List Spectrum) (fuel c : ℕ) (st : DState)
    (rest : List Spectrum) (hfile : st.file = none) (hne : rest ≠ [])
    (hfuel : 0 < fuel) :
    ∃ rows, (driverGo isdb fuel c st rest).file =
      some (if ((precursorPairs TolMode.ppm 10 (rest.take 1000) isdb).filter
          (fun p => decide (p.1 < p.2))).isEmpty then 0 else 1, rows) := by
  cases fuel with
  | zero => omega
  | succ fuel =>
    rw [driverGo]
    rw [if_neg (by simpa [List.isEmpty_iff] using hne)]
    have hfile' : (processChunk isdb c st (rest.take 1000)).file =
        some (if ((precursorPairs TolMode.ppm 10 (rest.take 1000) isdb).filter
            (fun p => decide (p.1 < p.2))).isEmpty then 0 else 1,
          chunkRecords c
            (st.map ++ (List.range (rest.take 1000).length).map
              (fun k => (st.nextId + k, st.nextId + k))) (rest.take 1000) isdb) := by
      rw [← chunkRecords_isEmpty c
        (st.map ++ (List.range (rest.take 1000).length).map
          (fun k => (st.nextId + k, st.nextId + k))) (rest.take 1000) isdb]
      simp [processChunk, appendCsv, hfile]
      rw [List.length_take]
    obtain ⟨extra, hfin⟩ := driverGo_file_some isdb fuel (c + 1) _ (rest.drop 1000) _ _ hfile'
    exact ⟨_, hfin⟩

/-- C9 counterexample: a fresh-destination run whose first chunk produces no
records (here the reference collection is empty, so the filter emits no
pairs) creates the output file with zero header lines: `to_csv` on the empty
zero-column DataFrame creates the file without a schema header, and every
later append sees the file existing and passes `header=False`, so the header
is never written. -/
theorem csv_header_missing_on_empty_first_chunk :
    (runDriverFrom none [w1q] []).file = some (0, []) := rfl

/-- C9 amended: the header is written at most once and only on file
creation: a run against a fresh destination creates the file with exactly
one header line when its first chunk produces at least one record, and with
zero header lines otherwise (a record-less first chunk yields an empty
DataFrame, whose `to_csv` writes no header); a run against an existing
destination preserves the header count and appends its records after the
existing rows. -/
theorem csv_header_at_most_once (qs isdb : List Spectrum) :
    (qs ≠ [] → ∃ rows, (runDriverFrom none qs isdb).file =
      some (if ((precursorPairs TolMode.ppm 10 (qs.take 1000) isdb).filter
          (fun p => decide (p.1 < p.2))).isEmpty then 0 else 1, rows)) ∧
      ∀ (h0 : ℕ) (rows0 : List MatchRecord), ∃ extra,
        (runDriverFrom (some (h0, rows0)) qs isdb).file = some (h0, rows0 ++ extra) := by
  constructor
  · intro hne
    exact driverGo_file_none isdb qs.length 0 ⟨[], 0, none⟩ qs rfl hne
      (List.length_pos.mpr hne)
  · intro h0 rows0
    exact driverGo_file_some isdb qs.length 0 ⟨[], 0, some (h0, rows0)⟩ qs h0 rows0 rfl

theorem csv_header_at_most_once_witness :
    (∃ rows, (runDriverFrom none [w1q] [w1r, w1r]).file =
      some (if ((precursorPairs TolMode.ppm 10 ([w1q].take 1000) [w1r, w1r]).filter
          (fun p => decide (p.1 < p.2))).isEmpty then 0 else 1, rows)) ∧
      ∀ (h0 : ℕ) (rows0 : List MatchRecord), ∃ extra,
        (runDriverFrom (some (h0, rows0)) [w1q] [w1r, w1r]).file =
          some (h0, rows0 ++ extra) :=
  ⟨(csv_header_at_most_once [w1q] [w1r, w1r]).1 (List.cons_ne_nil _ _),
    (csv_header_at_most_once [w1q] [w1r, w1r]).2⟩

/-- C10: the MassSpecGym filter returns a subsequence of its input in which
every spectrum has adduct `[M+H]+` and an `inchikey` occurring among the
`compound_name` metadata values of the ISDB spectra. -/
theorem filter_massspecgym_spec (msg isdb : List Spectrum) :
    (filter_massspecgym_spectra msg isdb).Sublist msg ∧
      ∀ s ∈ filter_massspecgym_spectra msg isdb,
        s.get "adduct" = some "[M+H]+" ∧
          s.get "inchikey" ∈ isdb.map (fun r => r.get "compound_name") := by
  unfold filter_massspecgym_spectra
  constructor
  · exact (List.filter_sublist _).trans (List.filter_sublist _)
  · intro s hs
    have h2 := List.mem_filter.mp hs
    have h1 := List.mem_filter.mp h2.1
    constructor
    · simpa using h2.2
    · simpa using h1.2

lemma lookup_selfmap (l : List ℕ) (k : ℕ) (hk : k ∈ l) :
    (l.map (fun i => (i, i))).lookup k = some k := by
  induction l with
  | nil => cases hk
  | cons a t ih =>
    rw [List.map_cons]
    by_cases hka : k = a
    · subst hka
      simp [List.lookup]
    · have hkt : k ∈ t := by
        rcases List.mem_cons.mp hk with h | h
        · exact absurd h hka
        · exact h
      have hbeq : (k == a) = false := beq_eq_false_iff_ne.mpr hka
      simp [List.lookup, hbeq, ih hkt]

lemma idMap_append (n len : ℕ) :
    (List.range n).map (fun k => (k, k)) ++
      (List.range len).map (fun k => (n + k, n + k)) =
    (List.range (n + len)).map (fun k => (k, k)) := by
  rw [List.range_add, List.map_append, List.map_map]
  rfl

lemma fileRows_appendCsv (m : List (ℕ × ℕ)) (n : ℕ)
    (f : Option (ℕ × List MatchRecord)) (recs : List MatchRecord) :
    fileRows ⟨m, n, appendCsv f recs⟩ = fileRows ⟨m, n, f⟩ ++ recs := by
  cases f with
  | none => rfl
  | some pr =>
    obtain ⟨h, rows⟩ := pr
    rfl

lemma driverGo_refines (isdb : List Spectrum) :
    ∀ (fuel c : ℕ) (st : DState) (rest : List Spectrum),
      rest.length ≤ fuel →
      (rest = [] ∨ (st.map = (List.range st.nextId).map (fun k => (k, k)) ∧
        st.nextId = 1000 * c)) →
      fileRows (driverGo isdb fuel c st rest) =
        fileRows st ++ driverGoPure isdb fuel c rest := by
  intro fuel
  induction fuel with
  | zero =>
    intro c st rest hlen hinv
    simp [driverGo, driverGoPure]
  | succ fuel ih =>
    intro c st rest hlen hinv
    rw [driverGo, driverGoPure]
    by_cases hrest : rest.isEmpty
    · rw [if_pos hrest, if_pos hrest]
      simp
    · rw [if_neg hrest, if_neg hrest]
      have hrne : rest ≠ [] := by simpa [List.isEmpty_iff] using hrest
      rcases hinv with rfl | ⟨hmap, hnext⟩
      · exact absurd rfl hrne
      have hrecs : chunkRecords c (st.map ++ (List.range (rest.take 1000).length).map
            (fun k => (st.nextId + k, st.nextId + k))) (rest.take 1000) isdb =
          chunkRecordsPure c (rest.take 1000) isdb := by
        rw [hmap, idMap_append, chunkRecords_eq, chunkRecordsPure_eq]
        apply List.map_congr_left
        intro p hp
        have hpmem := (List.mem_filter.mp hp).1
        have hp1 : p.1 < (rest.take 1000).length := (mem_precursorPairs.mp hpmem).1
        have hkey : p.1 + 1000 * c ∈ List.range (st.nextId + (rest.take 1000).length) := by
          rw [List.mem_range]
          omega
        have hlook := lookup_selfmap _ _ hkey
        unfold mkRecord mkRecordPure
        rw [hlook]
        simp [Nat.add_comm]
      have hfrows : fileRows (processChunk isdb c st (rest.take 1000)) =
          fileRows st ++ chunkRecordsPure c (rest.take 1000) isdb := by
        simp only [processChunk]
        rw [fileRows_appendCsv, hrecs]
        rfl
      have hlen' : (rest.drop 1000).length ≤ fuel := by
        rw [List.length_drop]
        have hpos : 0 < rest.length := List.length_pos.mpr hrne
        omega
      have hinv' : rest.drop 1000 = [] ∨
          ((processChunk isdb c st (rest.take 1000)).map =
            (List.range (processChunk isdb c st (rest.take 1000)).nextId).map
              (fun k => (k, k)) ∧
          (processChunk isdb c st (rest.take 1000)).nextId = 1000 * (c + 1)) := by
        by_cases hd : rest.drop 1000 = []
        · exact Or.inl hd
        · right
          have hlen1000 : (rest.take 1000).length = 1000 := by
            rw [List.length_take]
            have hlong : 1000 < rest.length := by
              by_contra hc
              push_neg at hc
              exact hd (List.drop_eq_nil_of_le hc)
            omega
          constructor
          · simp [processChunk, hmap, idMap_append]
          · simp [processChunk, hnext, hlen1000]
            omega
      rw [ih (c + 1) _ _ hlen' hinv', hfrows, List.append_assoc]

lemma driver_rows_pure (qs isdb : List Spectrum) :
    fileRows (runDriver qs isdb) = driverGoPure isdb qs.length 0 qs := by
  unfold runDriver runDriverFrom
  have hmain := driverGo_refines isdb qs.length 0 ⟨[], 0, none⟩ qs (le_refl _)
    (Or.inr ⟨by simp, by simp⟩)
  simpa [fileRows] using hmain

lemma pure_ids (isdb : List Spectrum) :
    ∀ (fuel c : ℕ) (rest : List Spectrum),
      (driverGoPure isdb fuel c rest).map MatchRecord.feature_id =
        goIds isdb fuel c rest := by
  intro fuel
  induction fuel with
  | zero => intro c rest; rfl
  | succ fuel ih =>
    intro c rest
    rw [driverGoPure, goIds]
    by_cases hrest : rest.isEmpty
    · rw [if_pos hrest, if_pos hrest]
      rfl
    · rw [if_neg hrest, if_neg hrest]
      rw [List.map_append, ih]
      congr 1
      rw [chunkRecordsPure_eq, List.map_map]
      rfl

lemma pairwise_fst_flatMap {f : ℕ → List (ℕ × ℕ)} :
    ∀ {l : List ℕ}, l.Pairwise (· < ·) → (∀ i, ∀ p ∈ f i, p.1 = i) →
      (l.flatMap f).Pairwise (fun p q : ℕ × ℕ => p.1 ≤ q.1) := by
  intro l
  induction l with
  | nil => intro _ _; simp
  | cons a t ih =>
    intro hl hf
    rw [List.flatMap_cons, List.pairwise_append]
    obtain ⟨ha, ht⟩ := List.pairwise_cons.mp hl
    refine ⟨?_, ih ht hf, ?_⟩
    · exact List.pairwise_of_forall_mem_list
        (fun p hp q hq => by rw [hf a p hp, hf a q hq])
    · intro p hp q hq
      obtain ⟨j, hj, hqj⟩ := List.mem_flatMap.mp hq
      rw [hf a p hp, hf j q hqj]
      exact (ha j hj).le

lemma precursorPairs_fst_mono (mode : TolMode) (tol : ℚ) (qs rs : List Spectrum) :
    (precursorPairs mode tol qs rs).Pairwise (fun p q => p.1 ≤ q.1) := by
  apply pairwise_fst_flatMap (List.pairwise_lt_range _)
  intro i p hp
  simp only [List.mem_filterMap, Option.ite_none_right_eq_some,
    Option.some.injEq] at hp
  obtain ⟨j, hj, hpass, hpeq⟩ := hp
  rw [← hpeq]

lemma goIds_props (isdb : List Spectrum) :
    ∀ (fuel c : ℕ) (rest : List Spectrum),
      (goIds isdb fuel c rest).Pairwise (· ≤ ·) ∧
        ∀ v ∈ goIds isdb fuel c rest, 1000 * c ≤ v := by
  intro fuel
  induction fuel with
  | zero => intro c rest; simp [goIds]
  | succ fuel ih =>
    intro c rest
    rw [goIds]
    by_cases hrest : rest.isEmpty
    · rw [if_pos hrest]
      simp
    · rw [if_neg hrest]
      obtain ⟨ihpw, ihlb⟩ := ih (c + 1) (rest.drop 1000)
      have hchunkpw : (((precursorPairs TolMode.ppm 10 (rest.take 1000) isdb).filter
          (fun p => decide (p.1 < p.2))).map (fun p => 1000 * c + p.1)).Pairwise
            (· ≤ ·) := by
        rw [List.pairwise_map]
        apply List.Pairwise.imp (fun hle => Nat.add_le_add_left hle _)
        exact List.Pairwise.sublist (List.filter_sublist _)
          (precursorPairs_fst_mono TolMode.ppm 10 (rest.take 1000) isdb)
      constructor
      · rw [List.pairwise_append]
        refine ⟨hchunkpw, ihpw, ?_⟩
        intro a ha b hb
        have hb' := ihlb b hb
        obtain ⟨p, hp, rfl⟩ := List.mem_map.mp ha
        have hp1 : p.1 < (rest.take 1000).length :=
          (mem_precursorPairs.mp (List.mem_filter.mp hp).1).1
        have htake : (rest.take 1000).length ≤ 1000 := by
          rw [List.length_take]
          omega
        omega
      · intro v hv
        rcases List.mem_append.mp hv with hv | hv
        · obtain ⟨p, hp, rfl⟩ := List.mem_map.mp hv
          exact Nat.le_add_right _ _
        · have := ihlb v hv
          omega

/-- C4 amended: the driver's record stream equals that of the pure-id driver
in which `query_feature_id` is computed directly as `chunk_index * 1000 +
chunk_local_index` (so the mutable `scans_id_map` counter is extensionally
that pure function), and the feature ids in output order are nondecreasing;
they are not strictly increasing, since one query spectrum matching several
references repeats its id. -/
theorem driver_ids_pure_nondecreasing (qs isdb : List Spectrum) :
    fileRows (runDriver qs isdb) = driverGoPure isdb qs.length 0 qs ∧
      ((fileRows (runDriver qs isdb)).map MatchRecord.feature_id).Pairwise
        (· ≤ ·) := by
  have h1 := driver_rows_pure qs isdb
  refine ⟨h1, ?_⟩
  rw [h1, pure_ids]
  exact (goIds_props isdb qs.length 0 qs).1

unseal Rat.add Rat.sub Rat.mul Rat.inv in
/-- C4 counterexample: one query spectrum matching two references (indices 1
and 2) yields two records with the same `query_feature_id` 0, so the ids in
output order are not strictly increasing. -/
theorem driver_ids_not_strictly_increasing :
    ¬ ((fileRows (runDriver [w1q] [w1r, w1r, w1r])).map
        MatchRecord.feature_id).Pairwise (· < ·) := by
  rw [driver_rows_pure, pure_ids]
  decide

/-- C8: scoring two spectra where either side has a zero-norm intensity
vector yields similarity score 0 and matched peak count 0; the model is a
total function, so no division error can occur. -/
theorem scorer_zero_norm_guard (tol : ℚ) (A B : Spectrum)
    (h : normSq A = 0 ∨ normSq B = 0) :
    cosineGreedy_score tol A B = 0 ∧ cosineGreedy_matches tol A B = 0 := by
  unfold cosineGreedy_score cosineGreedy_matches
  rw [if_pos h, if_pos h]
  exact ⟨rfl, rfl⟩

/-- Spectrum with one peak of zero intensity, used as the C8 witness. -/
def zeroS : Spectrum := ⟨[100], [0], [], none⟩

unseal Rat.add Rat.sub Rat.mul Rat.inv in
theorem scorer_zero_norm_guard_witness :
    cosineGreedy_score 1 zeroS selfS = 0 ∧ cosineGreedy_matches 1 zeroS selfS = 0 :=
  scorer_zero_norm_guard 1 zeroS selfS (Or.inl (by decide))

end MetfragEval
